import Mathlib

/-!
Verification of the AEGIS quantitative decision-analysis core: shallow
embeddings of the MCDA ranking functions (`topsis`, `promethee_ii`, `wsm`,
`tier_from_score`, the `run_mcda` method dispatch) from
`analytics/mcda_engine.py`, and of the Monte Carlo terminal-value and
risk-statistic computations (`simulate_fx`, `simulate_lead_time`) from
`analytics/monte_carlo.py`.  Machine floats are modelled as exact rationals
or reals; the pseudorandom normal draws are modelled as explicit draw
streams passed to the simulator.
-/

namespace Aegis

section MCDA

variable {α : Type} [LinearOrderedField α]

/-- Minimum of a list, seeded with the head (models `numpy.min` along an
axis; the 0 on `[]` is never used by the callers, which reduce nonempty
axes). -/
def listMin : List α → α
  | [] => 0
  | x :: xs => xs.foldl min x

/-- Maximum of a list, seeded with the head (models `numpy.max` along an
axis). -/
def listMax : List α → α
  | [] => 0
  | x :: xs => xs.foldl max x

/-- Column `k` of a row-major matrix (`decision_matrix[:, k]`); out-of-range
entries read as 0, which never happens on well-shaped input. -/
def colVals (M : List (List α)) (k : ℕ) : List α :=
  M.map (fun row => row.getD k 0)

/-- The criterion count `n` of `m, n = decision_matrix.shape`: the length of
the first row. -/
def nCrit (M : List (List α)) : ℕ := (M.headD []).length

/-- The linear preference function used inside `promethee_ii`
(`mcda_engine.py` lines 182-194): 0 at or below the indifference threshold
`q`, 1 at or above the preference threshold `p`, linear in between.  It is
applied to the raw criterion difference `M[i,k] - M[j,k]`; the code has no
polarity argument. -/
def prefLinear (q p d : α) : α :=
  if d ≤ q then 0 else if p ≤ d then 1 else (d - q) / (p - q)

/-- Pairwise preference degree `pi_ij` of `promethee_ii` (`mcda_engine.py`
lines 176-197): weighted sum over criteria of the linear preference of the
raw difference. -/
def pairwisePref (M : List (List α)) (w : List α) (q p : α) (i j : ℕ) : α :=
  ∑ k ∈ Finset.range (nCrit M),
    w.getD k 0 * prefLinear q p ((M.getD i []).getD k 0 - (M.getD j []).getD k 0)

/-- Outgoing flow `phi_plus[i]` (`mcda_engine.py` line 199): sum over `j ≠ i`
of `pi_ij / (m - 1)`. -/
def phiPlus (M : List (List α)) (w : List α) (q p : α) (i : ℕ) : α :=
  ∑ j ∈ Finset.range M.length,
    if j = i then 0 else pairwisePref M w q p i j / ((M.length : α) - 1)

/-- Incoming flow `phi_minus[i]` (`mcda_engine.py` line 200): sum over
`j ≠ i` of `pi_ji / (m - 1)`. -/
def phiMinus (M : List (List α)) (w : List α) (q p : α) (i : ℕ) : α :=
  ∑ j ∈ Finset.range M.length,
    if j = i then 0 else pairwisePref M w q p j i / ((M.length : α) - 1)

/-- `promethee_ii(decision_matrix, weights, q, p)` (`mcda_engine.py` lines
141-203): the net flow `phi_plus - phi_minus` per alternative.  The first
pairwise pass in the source is dead (its accumulators are reset at line
170); the function returns the "recomputed properly" second-pass flows. -/
def promethee_ii (M : List (List α)) (w : List α) (q p : α) : List α :=
  (List.range M.length).map (fun i => phiPlus M w q p i - phiMinus M w q p i)

/-- Min-max normalized entry for column `k` of `wsm` (`mcda_engine.py`
lines 211-216); a zero column range is replaced by 1. -/
def minmaxEntry (M : List (List α)) (k : ℕ) (x : α) : α :=
  (x - listMin (colVals M k)) /
    (if listMax (colVals M k) - listMin (colVals M k) = 0 then 1
     else listMax (colVals M k) - listMin (colVals M k))

/-- `wsm(decision_matrix, weights)` (`mcda_engine.py` lines 209-217):
min-max normalize each column, then the weighted sum `normed @ weights`.
The weights are not normalized inside `wsm`; `run_mcda` normalizes them
before the call (line 250). -/
def wsm (M : List (List α)) (w : List α) : List α :=
  M.map (fun row =>
    ∑ k ∈ Finset.range (nCrit M), minmaxEntry M k (row.getD k 0) * w.getD k 0)

/-- The spec's polarity-adjusted per-criterion preference (spec §4.2):
the advantage of i over j is the raw difference for a benefit criterion and
its negation for a cost criterion, fed to the same linear q/p preference.
Written from the spec's words, for comparison with the source's
`prefLinear`, which has no polarity input. -/
def prefLinearPolar (b : Bool) (q p d : α) : α :=
  prefLinear q p (if b then d else -d)

/-- Pairwise preference degree of the spec's polarity-aware PROMETHEE II
(spec §4.2). -/
def pairwisePrefPolar (M : List (List α)) (w : List α) (pol : List Bool)
    (q p : α) (i j : ℕ) : α :=
  ∑ k ∈ Finset.range (nCrit M),
    w.getD k 0 *
      prefLinearPolar (pol.getD k true) q p
        ((M.getD i []).getD k 0 - (M.getD j []).getD k 0)

/-- Net flows of the spec's polarity-aware PROMETHEE II (spec §4.2), with
the same flow averaging as the source. -/
def prometheePolar (M : List (List α)) (w : List α) (pol : List Bool)
    (q p : α) : List α :=
  (List.range M.length).map (fun i =>
    (∑ j ∈ Finset.range M.length,
      if j = i then 0
      else pairwisePrefPolar M w pol q p i j / ((M.length : α) - 1)) -
    ∑ j ∈ Finset.range M.length,
      if j = i then 0
      else pairwisePrefPolar M w pol q p j i / ((M.length : α) - 1))

/-- `tier_from_score` (`mcda_engine.py` lines 223-232). -/
def tier_from_score (score : α) : String :=
  if 80 ≤ score then "Strategic"
  else if 65 ≤ score then "Preferred"
  else if 50 ≤ score then "Approved"
  else if 35 ≤ score then "Conditional"
  else "Blocked"

end MCDA

/-- Column Euclidean norm of `topsis` step 1 (`mcda_engine.py` lines
114-117): `sqrt((decision_matrix ** 2).sum(axis=0))`, with zero norms
replaced by 1 (`norms[norms == 0] = 1`). -/
noncomputable def colNorm (M : List (List ℝ)) (k : ℕ) : ℝ :=
  if Real.sqrt (((colVals M k).map (fun x => x ^ 2)).sum) = 0 then 1
  else Real.sqrt (((colVals M k).map (fun x => x ^ 2)).sum)

/-- Column `k` of the weighted normalized matrix of `topsis` steps 1-2
(`mcda_engine.py` lines 117-120): `decision_matrix / norms * weights`. -/
noncomputable def weightedCol (M : List (List ℝ)) (w : List ℝ) (k : ℕ) :
    List ℝ :=
  (colVals M k).map (fun x => x / colNorm M k * w.getD k 0)

/-- `ideal_best[k]` of `topsis` step 3 (`mcda_engine.py` line 123):
weighted column max for a benefit criterion, min for a cost criterion.  An
empty polarity list models the `None` default (all benefit), via the `getD`
default `true`. -/
noncomputable def idealBest (M : List (List ℝ)) (w : List ℝ)
    (pol : List Bool) (k : ℕ) : ℝ :=
  if pol.getD k true then listMax (weightedCol M w k)
  else listMin (weightedCol M w k)

/-- `ideal_worst[k]` of `topsis` step 3 (`mcda_engine.py` line 124). -/
noncomputable def idealWorst (M : List (List ℝ)) (w : List ℝ)
    (pol : List Bool) (k : ℕ) : ℝ :=
  if pol.getD k true then listMin (weightedCol M w k)
  else listMax (weightedCol M w k)

/-- Euclidean distance of one alternative's weighted row to an ideal vector
(`topsis` step 4, `mcda_engine.py` lines 127-128). -/
noncomputable def distToIdeal (M : List (List ℝ)) (w : List ℝ)
    (ideal : ℕ → ℝ) (row : List ℝ) : ℝ :=
  Real.sqrt (∑ k ∈ Finset.range (nCrit M),
    (row.getD k 0 / colNorm M k * w.getD k 0 - ideal k) ^ 2)

/-- `topsis(decision_matrix, weights, benefit_criteria)` (`mcda_engine.py`
lines 101-135): closeness `dist_worst / (dist_best + dist_worst)` with zero
denominators replaced by 1 (step 5, lines 131-133). -/
noncomputable def topsis (M : List (List ℝ)) (w : List ℝ) (pol : List Bool) :
    List ℝ :=
  M.map (fun row =>
    distToIdeal M w (idealWorst M w pol) row /
      (if distToIdeal M w (idealBest M w pol) row +
            distToIdeal M w (idealWorst M w pol) row = 0
       then 1
       else distToIdeal M w (idealBest M w pol) row +
            distToIdeal M w (idealWorst M w pol) row))

/-- The method dispatch of `run_mcda` (`mcda_engine.py` lines 262-270):
`"TOPSIS"` and `"PROMETHEE"` are matched by exact name and every other
method string takes the final `else  # WSM` branch.  TOPSIS runs with the
all-benefit default polarity, PROMETHEE with default thresholds `q = 5`,
`p = 20` followed by the min-max rescale with the `1e-9` guard; all scores
are scaled to 0-100. -/
noncomputable def runMcdaScores (method : String) (dm : List (List ℝ))
    (w : List ℝ) : List ℝ :=
  if method = "TOPSIS" then (topsis dm w []).map (fun s => s * 100)
  else if method = "PROMETHEE" then
    (promethee_ii dm w 5 20).map (fun x =>
      (x - listMin (promethee_ii dm w 5 20)) /
        (listMax (promethee_ii dm w 5 20) -
          listMin (promethee_ii dm w 5 20) + 1 / 1000000000) * 100)
  else (wsm dm w).map (fun s => s * 100)

/-- C6: `tier_from_score` maps a score `s` to Strategic iff `s ≥ 80`,
Preferred iff `65 ≤ s < 80`, Approved iff `50 ≤ s < 65`, Conditional iff
`35 ≤ s < 50`, Blocked iff `s < 35`; the boundaries are inclusive on the
lower end: `tier_from_score 80 = "Strategic"` and
`tier_from_score 79.99 = "Preferred"`. -/
theorem tier_thresholds_inclusive_lower :
    (∀ s : ℚ,
      (tier_from_score s = "Strategic" ↔ 80 ≤ s) ∧
      (tier_from_score s = "Preferred" ↔ 65 ≤ s ∧ s < 80) ∧
      (tier_from_score s = "Approved" ↔ 50 ≤ s ∧ s < 65) ∧
      (tier_from_score s = "Conditional" ↔ 35 ≤ s ∧ s < 50) ∧
      (tier_from_score s = "Blocked" ↔ s < 35)) ∧
    tier_from_score (80 : ℚ) = "Strategic" ∧
    tier_from_score ((7999 : ℚ) / 100) = "Preferred" := by
  refine ⟨fun s => ?_, by norm_num [tier_from_score], by norm_num [tier_from_score]⟩
  unfold tier_from_score
  split_ifs with h1 h2 h3 h4 <;>
    refine ⟨?_, ?_, ?_, ?_, ?_⟩ <;>
    constructor <;>
    simp_all <;>
    first
      | linarith
      | (intro h; linarith)

section OrderHelpers

variable {α : Type} [LinearOrderedField α]

theorem foldl_min_le_init : ∀ (xs : List α) (a : α), xs.foldl min a ≤ a
  | [], a => le_refl a
  | x :: t, a => le_trans (foldl_min_le_init t (min a x)) (min_le_left a x)

theorem foldl_min_le_mem : ∀ (xs : List α) (a y : α), y ∈ xs → xs.foldl min a ≤ y
  | [], _, y, hy => absurd hy (List.not_mem_nil y)
  | x :: t, a, y, hy => by
      rcases List.mem_cons.mp hy with rfl | h
      · exact le_trans (foldl_min_le_init t (min a y)) (min_le_right a y)
      · exact foldl_min_le_mem t (min a x) y h

theorem listMin_le_of_mem {l : List α} {y : α} (hy : y ∈ l) : listMin l ≤ y := by
  cases l with
  | nil => exact absurd hy (List.not_mem_nil y)
  | cons x t =>
      rcases List.mem_cons.mp hy with rfl | h
      · exact foldl_min_le_init t y
      · exact foldl_min_le_mem t x y h

theorem init_le_foldl_max : ∀ (xs : List α) (a : α), a ≤ xs.foldl max a
  | [], a => le_refl a
  | x :: t, a => le_trans (le_max_left a x) (init_le_foldl_max t (max a x))

theorem mem_le_foldl_max : ∀ (xs : List α) (a y : α), y ∈ xs → y ≤ xs.foldl max a
  | [], _, y, hy => absurd hy (List.not_mem_nil y)
  | x :: t, a, y, hy => by
      rcases List.mem_cons.mp hy with rfl | h
      · exact le_trans (le_max_right a y) (init_le_foldl_max t (max a y))
      · exact mem_le_foldl_max t (max a x) y h

theorem le_listMax_of_mem {l : List α} {y : α} (hy : y ∈ l) : y ≤ listMax l := by
  cases l with
  | nil => exact absurd hy (List.not_mem_nil y)
  | cons x t =>
      rcases List.mem_cons.mp hy with rfl | h
      · exact init_le_foldl_max t y
      · exact mem_le_foldl_max t x y h

theorem foldl_max_eq_or_mem : ∀ (xs : List α) (a : α),
    xs.foldl max a = a ∨ xs.foldl max a ∈ xs
  | [], _ => Or.inl rfl
  | x :: t, a => by
      rcases foldl_max_eq_or_mem t (max a x) with h | h
      · rcases max_choice a x with h2 | h2
        · exact Or.inl (by rw [List.foldl_cons, h, h2])
        · exact Or.inr (by rw [List.foldl_cons, h, h2]; exact List.mem_cons_self x t)
      · exact Or.inr (List.mem_cons_of_mem x h)

theorem listMax_mem {l : List α} (hl : l ≠ []) : listMax l ∈ l := by
  cases l with
  | nil => exact absurd rfl hl
  | cons x t =>
      rcases foldl_max_eq_or_mem t x with h | h
      · exact List.mem_cons.mpr (Or.inl (by simpa [listMax] using h))
      · exact List.mem_cons.mpr (Or.inr (by simpa [listMax] using h))

theorem getD_nonneg {w : List α} (hw : ∀ x ∈ w, 0 ≤ x) (k : ℕ) :
    0 ≤ w.getD k 0 := by
  by_cases hk : k < w.length
  · rw [List.getD_eq_getElem w 0 hk]
    exact hw _ (List.getElem_mem hk)
  · rw [List.getD_eq_default w 0 (le_of_not_lt hk)]

theorem sum_getD_le_sum {w : List α} (hw : ∀ x ∈ w, 0 ≤ x) :
    ∀ n : ℕ, ∑ k ∈ Finset.range n, w.getD k 0 ≤ w.sum := by
  induction w with
  | nil => intro n; simp [List.getD_nil]
  | cons a t ih =>
      intro n
      cases n with
      | zero =>
          simpa using List.sum_nonneg hw
      | succ m =>
          rw [Finset.sum_range_succ']
          simp only [List.getD_cons_succ, List.getD_cons_zero, List.sum_cons]
          have := ih (fun x hx => hw x (List.mem_cons_of_mem a hx)) m
          linarith

theorem minmaxEntry_bounds {M : List (List α)} {k : ℕ} {x : α}
    (hx : x ∈ colVals M k) : 0 ≤ minmaxEntry M k x ∧ minmaxEntry M k x ≤ 1 := by
  have h1 : listMin (colVals M k) ≤ x := listMin_le_of_mem hx
  have h2 : x ≤ listMax (colVals M k) := le_listMax_of_mem hx
  unfold minmaxEntry
  by_cases hr : listMax (colVals M k) - listMin (colVals M k) = 0
  · rw [if_pos hr]
    have hx0 : x - listMin (colVals M k) = 0 := by linarith
    rw [div_one, hx0]
    norm_num
  · rw [if_neg hr]
    have hpos : 0 < listMax (colVals M k) - listMin (colVals M k) := by
      rcases lt_or_eq_of_le (by linarith : (0 : α) ≤ listMax (colVals M k) - listMin (colVals M k)) with h | h
      · exact h
      · exact absurd h.symm hr
    constructor
    · exact div_nonneg (by linarith) (le_of_lt hpos)
    · rw [div_le_one hpos]; linarith

end OrderHelpers

/-- Helper: the sum of a mapped `List.range` as a `Finset.range` sum. -/
theorem list_sum_map_range (f : ℕ → ℚ) : ∀ n : ℕ,
    ((List.range n).map f).sum = ∑ i ∈ Finset.range n, f i
  | 0 => rfl
  | n + 1 => by
      rw [List.range_succ, List.map_append, List.sum_append,
        list_sum_map_range f n, Finset.sum_range_succ]
      simp

/-- C5: PROMETHEE II zero-sum invariant: for every decision matrix with at
least two alternatives, every weight vector and thresholds `q < p`, the net
flows returned by `promethee_ii` sum to exactly 0. -/
theorem promethee_net_flows_sum_zero (M : List (List ℚ)) (w : List ℚ)
    (q p : ℚ) (_hm : 2 ≤ M.length) (_hqp : q < p) :
    (promethee_ii M w q p).sum = 0 := by
  unfold promethee_ii phiPlus phiMinus
  rw [list_sum_map_range]
  rw [Finset.sum_sub_distrib]
  have h2 : (∑ i ∈ Finset.range M.length, ∑ j ∈ Finset.range M.length,
        (if j = i then 0
         else pairwisePref M w q p j i / ((M.length : ℚ) - 1))) =
      ∑ i ∈ Finset.range M.length, ∑ j ∈ Finset.range M.length,
        (if j = i then 0
         else pairwisePref M w q p i j / ((M.length : ℚ) - 1)) := by
    rw [Finset.sum_comm]
    refine Finset.sum_congr rfl fun i _ => Finset.sum_congr rfl fun j _ => ?_
    by_cases h : j = i
    · simp [h]
    · rw [if_neg h, if_neg (fun hh => h hh.symm)]
  rw [h2, sub_self]

/-- C5 witness: the zero-sum theorem at the concrete matrix
`[[0],[10]]`, weights `[1]`, thresholds `q = 5 < p = 20`. -/
theorem promethee_net_flows_sum_zero_witness :
    (2 ≤ ([[(0 : ℚ)], [10]] : List (List ℚ)).length ∧ (5 : ℚ) < 20) ∧
    (promethee_ii [[(0 : ℚ)], [10]] [1] 5 20).sum = 0 :=
  ⟨⟨by norm_num, by norm_num⟩,
    promethee_net_flows_sum_zero _ _ _ _ (by norm_num) (by norm_num)⟩

/-- C3 counterexample: `promethee_ii` accepts no polarity and always uses
the raw difference; on the matrix `[[0],[30]]` with the single criterion
marked as a cost criterion (`polarity = [false]`), weights `[1]`, `q = 5`,
`p = 20`, its net flows differ from the spec's polarity-adjusted
computation. -/
theorem promethee_ignores_polarity_counterexample :
    promethee_ii [[(0 : ℚ)], [30]] [1] 5 20 ≠
      prometheePolar [[(0 : ℚ)], [30]] [1] [false] 5 20 := by
  have h1 : promethee_ii [[(0 : ℚ)], [30]] [1] 5 20 = [-1, 1] := by
    norm_num [promethee_ii, phiPlus, phiMinus, pairwisePref, prefLinear, nCrit,
      List.range_succ, Finset.sum_range_succ, Finset.sum_range_zero,
      List.getD_cons_zero, List.getD_cons_succ]
  have h2 : prometheePolar [[(0 : ℚ)], [30]] [1] [false] 5 20 = [1, -1] := by
    norm_num [prometheePolar, pairwisePrefPolar, prefLinearPolar, prefLinear,
      nCrit, List.range_succ, Finset.sum_range_succ, Finset.sum_range_zero,
      List.getD_cons_zero, List.getD_cons_succ]
  rw [h1, h2]
  norm_num

/-- Helper: `getD` of an all-`true` replicate list is `true` at every
index. -/
theorem getD_replicate_true (n : ℕ) : ∀ k : ℕ,
    (List.replicate n true).getD k true = true := by
  induction n with
  | zero => intro k; simp [List.getD]
  | succ m ih =>
      intro k
      cases k with
      | zero => simp [List.replicate_succ]
      | succ j => simp [List.replicate_succ, ih j]

/-- C3 amended: `promethee_ii` takes no polarity argument; the per-criterion
preference is applied to the raw difference, i.e. the code coincides with
the spec's polarity-aware computation exactly when every criterion is
treated as a benefit criterion. -/
theorem promethee_matches_spec_all_benefit (M : List (List ℚ)) (w : List ℚ)
    (q p : ℚ) :
    promethee_ii M w q p =
      prometheePolar M w (List.replicate (nCrit M) true) q p := by
  have hpp : ∀ i j, pairwisePrefPolar M w (List.replicate (nCrit M) true) q p i j =
      pairwisePref M w q p i j := by
    intro i j
    unfold pairwisePrefPolar pairwisePref prefLinearPolar
    refine Finset.sum_congr rfl fun k _ => ?_
    rw [getD_replicate_true]
    simp
  unfold promethee_ii prometheePolar phiPlus phiMinus
  congr 1
  funext i
  simp only [hpp]

/-- C8 counterexample: `wsm` does not normalize the weights internally; with
the non-negative, not-all-zero weight vector `[2]` (sum 2, not 1) on matrix
`[[0],[1]]` it returns the score 2, which is outside `[0,1]`. -/
theorem wsm_exceeds_unit_counterexample :
    wsm [[(0 : ℚ)], [1]] [2] = [0, 2] ∧ ¬ ((2 : ℚ) ≤ 1) := by
  constructor
  · norm_num [wsm, minmaxEntry, listMin, listMax, colVals, nCrit,
      Finset.sum_range_succ, Finset.sum_range_zero, List.foldl,
      min_def, max_def, List.getD_cons_zero, List.getD_cons_succ]
  · norm_num

/-- C8 amended: weight normalization happens in the caller `run_mcda`
(line 250), not inside `wsm`; for every matrix and every non-negative
weight vector whose sum is at most 1 (in particular the normalized weights
`run_mcda` passes), every score returned by `wsm` lies in `[0,1]`. -/
theorem wsm_scores_in_unit_interval (M : List (List ℚ)) (w : List ℚ)
    (hw : ∀ x ∈ w, 0 ≤ x) (hw1 : w.sum ≤ 1) :
    ∀ s ∈ wsm M w, 0 ≤ s ∧ s ≤ 1 := by
  intro s hs
  unfold wsm at hs
  rcases List.mem_map.mp hs with ⟨row, hrow, rfl⟩
  have hmem : ∀ k : ℕ, row.getD k 0 ∈ colVals M k := fun k =>
    List.mem_map_of_mem (fun r => r.getD k 0) hrow
  constructor
  · exact Finset.sum_nonneg fun k _ =>
      mul_nonneg (minmaxEntry_bounds (hmem k)).1 (getD_nonneg hw k)
  · calc ∑ k ∈ Finset.range (nCrit M),
          minmaxEntry M k (row.getD k 0) * w.getD k 0
        ≤ ∑ k ∈ Finset.range (nCrit M), w.getD k 0 :=
          Finset.sum_le_sum fun k _ =>
            mul_le_of_le_one_left (getD_nonneg hw k) (minmaxEntry_bounds (hmem k)).2
      _ ≤ w.sum := sum_getD_le_sum hw _
      _ ≤ 1 := hw1

/-- C8 witness: the amended theorem at matrix `[[0],[1]]` with the
normalized weight vector `[1/2]`. -/
theorem wsm_scores_in_unit_interval_witness :
    ((∀ x ∈ [(1 : ℚ) / 2], 0 ≤ x) ∧ ([(1 : ℚ) / 2] : List ℚ).sum ≤ 1) ∧
    ∀ s ∈ wsm [[(0 : ℚ)], [1]] [(1 : ℚ) / 2], 0 ≤ s ∧ s ≤ 1 :=
  ⟨⟨by norm_num, by norm_num⟩,
    wsm_scores_in_unit_interval _ _ (by norm_num) (by norm_num)⟩

/-- `config.MC_DEFAULT_PATHS` (`config.py` line 55). -/
def MC_DEFAULT_PATHS : ℕ := 10000

/-- `config.MC_MAX_PATHS` (`config.py` line 57). -/
def MC_MAX_PATHS : ℕ := 100000

/-- `config.MC_DEFAULT_HORIZON_DAYS` (`config.py` line 56). -/
def MC_DEFAULT_HORIZON_DAYS : ℕ := 90

/-- `config.MC_MAX_HORIZON_DAYS` (`config.py` line 58). -/
def MC_MAX_HORIZON_DAYS : ℕ := 365

/-- Python `x or default` on an optional integer argument (`monte_carlo.py`
lines 35-36): `None` and `0` are both falsy, so an explicitly passed 0 is
replaced by the default exactly like an omitted argument. -/
def pyOrDefault (x : Option ℕ) (d : ℕ) : ℕ :=
  match x with
  | none => d
  | some v => if v = 0 then d else v

/-- Effective path count of `simulate_fx` (`monte_carlo.py` lines 35, 40):
`or`-defaulting followed by the `MC_MAX_PATHS` cap. -/
def effPaths (n : Option ℕ) : ℕ :=
  min (pyOrDefault n MC_DEFAULT_PATHS) MC_MAX_PATHS

/-- Effective horizon of `simulate_fx` (`monte_carlo.py` lines 36, 41):
`or`-defaulting followed by the `MC_MAX_HORIZON_DAYS` cap. -/
def effHorizon (h : Option ℕ) : ℕ :=
  min (pyOrDefault h MC_DEFAULT_HORIZON_DAYS) MC_MAX_HORIZON_DAYS

/-- The per-step exponent of `simulate_fx` (`monte_carlo.py` lines 43-53):
`-0.5 * daily_vol**2 * dt_step + daily_vol * math.sqrt(dt_step) * z` with
`daily_vol = annual_vol / math.sqrt(252)` and `dt_step = 1/252`. -/
noncomputable def stepExponent (annual_vol z : ℝ) : ℝ :=
  -(1 / 2) * (annual_vol / Real.sqrt 252) ^ 2 * (1 / 252) +
    annual_vol / Real.sqrt 252 * Real.sqrt (1 / 252) * z

/-- One multiplicative GBM step factor of `simulate_fx` (line 53). -/
noncomputable def gbmStepFactor (annual_vol z : ℝ) : ℝ :=
  Real.exp (stepExponent annual_vol z)

/-- Terminal value of one GBM path after `n` steps with draw stream `z`
(`monte_carlo.py` lines 50-53). -/
noncomputable def gbmTerminal (anchor annual_vol : ℝ) (z : ℕ → ℝ) : ℕ → ℝ
  | 0 => anchor
  | n + 1 => gbmTerminal anchor annual_vol z n * gbmStepFactor annual_vol (z n)

/-- The `terminal_rates` vector of `simulate_fx` (`monte_carlo.py` lines
26-54) for explicitly supplied nonzero (hence truthy) `current_rate` and
`annual_vol`; the path-count and horizon arguments pass through the
`or`-defaulting and the configured caps.  `z i t` is path `i`'s
standard-normal draw at step `t`. -/
noncomputable def simulateFxTerminals (current_rate annual_vol : ℝ)
    (n_paths horizon_days : Option ℕ) (z : ℕ → ℕ → ℝ) : List ℝ :=
  (List.range (effPaths n_paths)).map
    (fun i => gbmTerminal current_rate annual_vol (z i) (effHorizon horizon_days))

/-- C10: for every single-alternative matrix `[row]`, every weight vector
and every polarity, `topsis` returns the single score 0: both ideal vectors
equal the sole weighted row, both distances are 0, and the zero denominator
is replaced by 1, so the code resolves the spec's single-alternative open
question with the convention score 0, not a neutral 1.0. -/
theorem topsis_single_alternative_zero (row : List ℝ) (w : List ℝ)
    (pol : List Bool) : topsis [row] w pol = [0] := by
  have hb : ∀ k, idealBest [row] w pol k =
      row.getD k 0 / colNorm [row] k * w.getD k 0 := by
    intro k
    unfold idealBest weightedCol colVals
    by_cases h : pol.getD k true <;> simp [h, listMax, listMin]
  have hw2 : ∀ k, idealWorst [row] w pol k =
      row.getD k 0 / colNorm [row] k * w.getD k 0 := by
    intro k
    unfold idealWorst weightedCol colVals
    by_cases h : pol.getD k true <;> simp [h, listMax, listMin]
  have hd : ∀ ideal : ℕ → ℝ,
      (∀ k, ideal k = row.getD k 0 / colNorm [row] k * w.getD k 0) →
      distToIdeal [row] w ideal row = 0 := by
    intro ideal hi
    unfold distToIdeal
    rw [Finset.sum_eq_zero fun k _ => by rw [hi k]; ring]
    exact Real.sqrt_zero
  unfold topsis
  simp only [List.map_cons, List.map_nil]
  rw [hd _ hb, hd _ hw2]
  norm_num

/-- C4 counterexample: dispatching `run_mcda` on the unknown method name
"QUANTUM" does not fail; it produces exactly the same scores as the WSM
branch — a silent fallback to a default method. -/
theorem run_mcda_unknown_method_counterexample :
    runMcdaScores "QUANTUM" [[(1 : ℝ)], [2]] [1] =
      runMcdaScores "WSM" [[(1 : ℝ)], [2]] [1] := by
  unfold runMcdaScores
  rw [if_neg (by decide : ¬ ("QUANTUM" : String) = "TOPSIS"),
    if_neg (by decide : ¬ ("QUANTUM" : String) = "PROMETHEE"),
    if_neg (by decide : ¬ ("WSM" : String) = "TOPSIS"),
    if_neg (by decide : ¬ ("WSM" : String) = "PROMETHEE")]

/-- C4 amended: `run_mcda` selects "TOPSIS" and "PROMETHEE" by exact name,
and every other method string — known or unknown — silently takes the final
`else` branch and returns the WSM scores; no error is raised. -/
theorem run_mcda_method_fallback (method : String) (dm : List (List ℝ))
    (w : List ℝ) (h1 : method ≠ "TOPSIS") (h2 : method ≠ "PROMETHEE") :
    runMcdaScores method dm w = (wsm dm w).map (fun s => s * 100) := by
  unfold runMcdaScores
  rw [if_neg h1, if_neg h2]

/-- C4 witness: the fallback theorem at the unknown method name "FOO". -/
theorem run_mcda_method_fallback_witness :
    (("FOO" : String) ≠ "TOPSIS" ∧ ("FOO" : String) ≠ "PROMETHEE") ∧
    runMcdaScores "FOO" [[(1 : ℝ)], [2]] [1] =
      (wsm [[(1 : ℝ)], [2]] [1]).map (fun s => s * 100) :=
  ⟨⟨by decide, by decide⟩,
    run_mcda_method_fallback _ _ _ (by decide) (by decide)⟩

/-- Helper: with all draws zero, a GBM path is the anchor times the
zero-draw step factor to the number of steps. -/
theorem gbmTerminal_zero_draws (anchor annual_vol : ℝ) : ∀ n : ℕ,
    gbmTerminal anchor annual_vol (fun _ => 0) n =
      anchor * gbmStepFactor annual_vol 0 ^ n := by
  intro n
  induction n with
  | zero => simp [gbmTerminal]
  | succ m ih => rw [gbmTerminal, ih, pow_succ, mul_assoc]

/-- Helper: the zero-draw step exponent is strictly negative for nonzero
volatility 0.2. -/
theorem stepExponent_neg_at_zero_draw : stepExponent (1 / 5) 0 < 0 := by
  unfold stepExponent
  have hpos : 0 < Real.sqrt 252 := Real.sqrt_pos.mpr (by norm_num)
  have ht : 0 < ((1 : ℝ) / 5 / Real.sqrt 252) ^ 2 :=
    pow_pos (div_pos (by norm_num) hpos) 2
  rw [mul_zero, add_zero]
  nlinarith

/-- C1 counterexample: calling `simulate_fx` with anchor 100, annual
volatility 0.2, `horizon_days = 0` and one path does not return `[100]`:
the Python `or`-defaulting replaces the explicit 0 horizon with the 90-day
default, and for the all-zero draw stream the terminal value is
`100 · exp(-½·daily_vol²·dt)⁹⁰ < 100`. -/
theorem simulate_fx_zero_horizon_counterexample :
    simulateFxTerminals 100 (1 / 5) (some 1) (some 0) (fun _ _ => 0) ≠ [100] := by
  have hlist : simulateFxTerminals 100 (1 / 5) (some 1) (some 0) (fun _ _ => 0) =
      [100 * gbmStepFactor (1 / 5) 0 ^ 90] := by
    unfold simulateFxTerminals
    have hp : effPaths (some 1) = 1 := rfl
    have hh : effHorizon (some 0) = 90 := rfl
    rw [hp, hh]
    simp [List.range_succ, gbmTerminal_zero_draws]
  rw [hlist]
  intro hcontra
  rw [List.cons.injEq] at hcontra
  have h1 : 100 * gbmStepFactor (1 / 5) 0 ^ 90 = 100 := hcontra.1
  have hfac1 : gbmStepFactor (1 / 5) 0 < 1 := by
    unfold gbmStepFactor
    exact Real.exp_lt_one_iff.mpr stepExponent_neg_at_zero_draw
  have hfac0 : 0 < gbmStepFactor (1 / 5) 0 := Real.exp_pos _
  have hpow : gbmStepFactor (1 / 5) 0 ^ 90 < 1 :=
    pow_lt_one₀ (le_of_lt hfac0) hfac1 (by norm_num)
  nlinarith

/-- C1 amended: an explicit `horizon_days = 0` is falsy in Python, so
`simulate_fx` silently replaces it with the 90-day default
(`MC_DEFAULT_HORIZON_DAYS`) and the returned vector is a 90-step GBM
sample, not the constant anchor.  The zero-horizon invariance itself holds
of the GBM path recursion: with 0 effective steps, every path of every
count returns exactly the anchor. -/
theorem gbm_zero_steps_returns_anchor :
    effHorizon (some 0) = MC_DEFAULT_HORIZON_DAYS ∧
    ∀ (N : ℕ) (anchor annual_vol : ℝ) (z : ℕ → ℕ → ℝ),
      (List.range N).map (fun i => gbmTerminal anchor annual_vol (z i) 0) =
        List.replicate N anchor := by
  refine ⟨rfl, ?_⟩
  intro N anchor vol z
  have hterm : (fun i => gbmTerminal anchor vol (z i) 0) = fun _ => anchor := by
    funext i
    rfl
  rw [hterm]
  induction N with
  | zero => rfl
  | succ m ih =>
      rw [List.range_succ, List.map_append, ih, List.map_cons, List.map_nil]
      simp [List.replicate_succ']

/-- C2: the exponent `simulate_fx` actually applies per step.  The code
divides by √252 twice — `daily_vol = annual_vol/√252` is multiplied by a
further `√(1/252)` in the Z term and by `1/252` in the drift term — so the
step exponent equals `-½·(annual_vol/252)² + (annual_vol/252)·Z`: the
coefficient applied to Z is `annual_vol/252`, not the `annual_vol/√252`
claimed by the spec and by the code's own GBM comment (line 46). -/
theorem step_exponent_double_scaling :
    (∀ annual_vol z : ℝ, stepExponent annual_vol z =
      -(1 / 2) * (annual_vol / 252) ^ 2 + annual_vol / 252 * z) ∧
    stepExponent 1 1 - stepExponent 1 0 ≠ 1 / Real.sqrt 252 := by
  have hs2 : Real.sqrt 252 ^ 2 = 252 := Real.sq_sqrt (by norm_num)
  have hss : Real.sqrt 252 * Real.sqrt 252 = 252 :=
    Real.mul_self_sqrt (by norm_num)
  have hpos : 0 < Real.sqrt 252 := Real.sqrt_pos.mpr (by norm_num)
  have hform : ∀ annual_vol z : ℝ, stepExponent annual_vol z =
      -(1 / 2) * (annual_vol / 252) ^ 2 + annual_vol / 252 * z := by
    intro a z
    unfold stepExponent
    rw [show Real.sqrt (1 / 252) = 1 / Real.sqrt 252 by
          rw [one_div, one_div, Real.sqrt_inv],
      div_pow, hs2, div_mul_div_comm, mul_one, hss]
    ring
  refine ⟨hform, ?_⟩
  rw [hform 1 1, hform 1 0]
  intro hcontra
  have h2 : (1 : ℝ) / 252 = 1 / Real.sqrt 252 := by rw [← hcontra]; ring
  rw [div_eq_div_iff (by norm_num) (ne_of_gt hpos)] at h2
  have h3 : Real.sqrt 252 = 252 := by linarith
  rw [h3] at hss
  norm_num at hss

/-- The historical lead-time samples kept by `simulate_lead_time`
(`monte_carlo.py` line 103): the list comprehension
`[max(1, r[0]) for r in rows if r[0] and r[0] > 0]` drops every row whose
value is NULL (`None`) or zero (both falsy) or negative, and applies
`max(1, ·)` to the survivors. -/
def leadTimeSamples (rows : List (Option ℤ)) : List ℤ :=
  ((rows.filterMap id).filter
    (fun v => decide (v ≠ 0) && decide (0 < v))).map (fun v => max 1 v)

/-- The fixed fallback sample set substituted when fewer than 5 samples
survive (`monte_carlo.py` lines 105-107). -/
def fallbackLeadTimes : List ℤ := [30, 45, 60, 35, 50, 40, 55, 70, 25, 65]

/-- The sample set `simulate_lead_time` actually fits the log-normal to
(`monte_carlo.py` lines 103-110). -/
def fitSamples (rows : List (Option ℤ)) : List ℤ :=
  if (leadTimeSamples rows).length < 5 then fallbackLeadTimes
  else leadTimeSamples rows

/-- C9 counterexample: a retrieved zero duration is not retained as
`max(1, 0) = 1`; it is dropped by the comprehension filter, so the sample
count differs from the number of rows retrieved. -/
theorem lead_time_drops_nonpositive_counterexample :
    leadTimeSamples [some 0, some 7] = [7] ∧
    (leadTimeSamples [some 0, some 7]).length ≠
      ([some 0, some 7] : List (Option ℤ)).length := by
  constructor
  · decide
  · decide

/-- Helper: on strictly positive integers the `max(1, ·)` coercion is the
identity, and the comprehension filter reduces to positivity. -/
theorem filter_max_eq_filter_pos : ∀ l : List ℤ,
    (l.filter (fun v => decide (v ≠ 0) && decide (0 < v))).map
        (fun v => max 1 v) =
      l.filter (fun v => decide (0 < v))
  | [] => rfl
  | a :: t => by
      rw [List.filter_cons, List.filter_cons]
      by_cases h : 0 < a
      · have h0 : a ≠ 0 := by omega
        rw [if_pos (by simp [h, h0]), if_pos (by simp [h]), List.map_cons,
          filter_max_eq_filter_pos t, max_eq_right (by omega : (1 : ℤ) ≤ a)]
      · rw [if_neg (by simp [h]), if_neg (by simp [h]),
          filter_max_eq_filter_pos t]

/-- C9 amended: `simulate_lead_time` drops NULL, zero and negative
durations instead of flooring them: the retained samples are exactly the
strictly positive non-NULL values, unchanged (the `max(1, ·)` is the
identity on them), so the count fitted — and tested against the
fewer-than-5 fallback — is the number of positive rows, not the number of
rows retrieved. -/
theorem lead_time_keeps_only_positive (rows : List (Option ℤ)) :
    leadTimeSamples rows = (rows.filterMap id).filter (fun v => decide (0 < v)) :=
  filter_max_eq_filter_pos (rows.filterMap id)

/-- Linear interpolation at fractional rank `h` into a list of order
statistics: `numpy`'s default percentile interpolation between the entries
at `⌊h⌋` and `⌊h⌋ + 1`, returning the last entry when `⌊h⌋` is already the
top index. -/
def interpAt (s : List ℚ) (h : ℚ) : ℚ :=
  if (⌊h⌋).toNat + 1 < s.length then
    s.getD (⌊h⌋).toNat 0 +
      (h - ⌊h⌋) * (s.getD ((⌊h⌋).toNat + 1) 0 - s.getD (⌊h⌋).toNat 0)
  else s.getD (s.length - 1) 0

/-- `numpy.percentile(a, q)` with the default linear-interpolation method:
sort ascending and interpolate at rank `(n - 1) · q / 100`. -/
def percentile (l : List ℚ) (q : ℚ) : ℚ :=
  if l.length = 0 then 0
  else interpAt (List.insertionSort (· ≤ ·) l) (((l.length : ℚ) - 1) * q / 100)

/-- `var_95` of `simulate_fx` (`monte_carlo.py` line 69):
`np.percentile(terminal_rates, 95) - current_rate`. -/
def var95 (terminal : List ℚ) (anchor : ℚ) : ℚ :=
  percentile terminal 95 - anchor

/-- `cvar_95` of `simulate_fx` (`monte_carlo.py` line 70): the mean of the
terminal values at or above the 95th percentile
(`terminal_rates[terminal_rates >= np.percentile(terminal_rates, 95)]`),
minus the anchor. -/
def cvar95 (terminal : List ℚ) (anchor : ℚ) : ℚ :=
  (terminal.filter (fun x => decide (percentile terminal 95 ≤ x))).sum /
      ((terminal.filter (fun x => decide (percentile terminal 95 ≤ x))).length : ℚ) -
    anchor

/-- Helper: an interpolation between entries of `s` never exceeds a bound
on all entries of `s`. -/
theorem interpAt_le_of_bound {s : List ℚ} {B : ℚ} (hs : s ≠ [])
    (hB : ∀ x ∈ s, x ≤ B) (h : ℚ) : interpAt s h ≤ B := by
  unfold interpAt
  have hg0 : (0 : ℚ) ≤ h - ⌊h⌋ := by
    have := Int.floor_le h
    linarith
  have hg1 : h - ⌊h⌋ ≤ 1 := by
    have := Int.lt_floor_add_one h
    linarith
  by_cases hc : (⌊h⌋).toNat + 1 < s.length
  · rw [if_pos hc]
    have hia : (⌊h⌋).toNat < s.length := Nat.lt_of_succ_lt hc
    have ha : s.getD (⌊h⌋).toNat 0 ≤ B :=
      hB _ (by rw [List.getD_eq_getElem _ _ hia]; exact List.getElem_mem hia)
    have hb : s.getD ((⌊h⌋).toNat + 1) 0 ≤ B :=
      hB _ (by rw [List.getD_eq_getElem _ _ hc]; exact List.getElem_mem hc)
    have k1 : 0 ≤ (h - ⌊h⌋) * (B - s.getD ((⌊h⌋).toNat + 1) 0) :=
      mul_nonneg hg0 (by linarith)
    have k2 : 0 ≤ (1 - (h - ⌊h⌋)) * (B - s.getD (⌊h⌋).toNat 0) :=
      mul_nonneg (by linarith) (by linarith)
    nlinarith [k1, k2]
  · rw [if_neg hc]
    have hlen : 0 < s.length := List.length_pos.mpr hs
    have hi : s.length - 1 < s.length := by omega
    exact hB _ (by rw [List.getD_eq_getElem _ _ hi]; exact List.getElem_mem hi)

/-- Helper: the interpolated percentile of a nonempty list never exceeds
the list maximum. -/
theorem percentile_le_listMax {l : List ℚ} (hl : l ≠ []) (q : ℚ) :
    percentile l q ≤ listMax l := by
  unfold percentile
  rw [if_neg (fun h0 => hl (List.length_eq_zero.mp h0))]
  refine interpAt_le_of_bound ?_ ?_ _
  · intro hs
    apply hl
    have hperm := List.perm_insertionSort (· ≤ ·) l
    rw [hs] at hperm
    exact hperm.symm.eq_nil
  · intro x hx
    exact le_listMax_of_mem ((List.perm_insertionSort (· ≤ ·) l).mem_iff.mp hx)

/-- Helper: a lower bound on every element bounds the mean from below. -/
theorem const_mul_length_le_sum : ∀ (t : List ℚ) (c : ℚ),
    (∀ x ∈ t, c ≤ x) → c * t.length ≤ t.sum
  | [], _, _ => by simp
  | a :: t, c, h => by
      have h1 : c ≤ a := h a (List.mem_cons_self a t)
      have h2 := const_mul_length_le_sum t c
        (fun x hx => h x (List.mem_cons_of_mem a hx))
      simp only [List.sum_cons, List.length_cons]
      push_cast
      linarith

/-- C7: CVaR dominates VaR: for every non-empty terminal-value vector and
every anchor, `cvar_95 ≥ var_95` — the tail of values at or above the 95th
percentile is non-empty (it contains the maximum) and its mean is at least
the percentile itself. -/
theorem cvar_ge_var (terminal : List ℚ) (anchor : ℚ) (h : terminal ≠ []) :
    var95 terminal anchor ≤ cvar95 terminal anchor := by
  unfold var95 cvar95
  have hmax : listMax terminal ∈
      terminal.filter (fun x => decide (percentile terminal 95 ≤ x)) :=
    List.mem_filter.mpr ⟨listMax_mem h, by simpa using percentile_le_listMax h 95⟩
  have hlen : 0 <
      (terminal.filter (fun x => decide (percentile terminal 95 ≤ x))).length :=
    List.length_pos.mpr (List.ne_nil_of_mem hmax)
  have hall : ∀ x ∈ terminal.filter (fun x => decide (percentile terminal 95 ≤ x)),
      percentile terminal 95 ≤ x := fun x hx => by
    simpa using (List.mem_filter.mp hx).2
  have hsum := const_mul_length_le_sum _ _ hall
  have hmean : percentile terminal 95 ≤
      (terminal.filter (fun x => decide (percentile terminal 95 ≤ x))).sum /
        ((terminal.filter (fun x => decide (percentile terminal 95 ≤ x))).length : ℚ) := by
    rw [le_div_iff₀ (by exact_mod_cast hlen)]
    exact hsum
  linarith

/-- C7 witness: the CVaR-dominates-VaR theorem at the concrete terminal
vector `[1, 2, 3]` with anchor 0. -/
theorem cvar_ge_var_witness :
    ([(1 : ℚ), 2, 3] ≠ []) ∧ var95 [(1 : ℚ), 2, 3] 0 ≤ cvar95 [(1 : ℚ), 2, 3] 0 :=
  ⟨List.cons_ne_nil _ _, cvar_ge_var _ _ (List.cons_ne_nil _ _)⟩

end Aegis
